import Mathlib

/-!
Verification development for the pciSeq repository (MathieuBo/pciSeq).

The development shallowly embeds the two source files of the excerpt,

  * `pciSeq/app.py` — the `fit` / `init` / `write_to_disk` entry points,
  * `pciSeq/src/preprocess/spot_labels.py` — `inside_cell`, `reorder_labels`,
    `stage_data`,

together with a model of the variational-Bayes inference engine, which is
referenced by `app.py` (as `VarBayes` from `pciSeq.src.cell_call.main`) but
whose source file is not part of the excerpt; every engine definition is
modelled from the specification and carries a doc comment saying so.

Conventions used throughout:

  * Python ints are `Int`/`Nat`; the engine's floating-point numbers are `ℚ`
    (exact rationals, so the spec's `± 1e-6` tolerances are trivially met);
  * a raised Python exception is an `Except`/`Option` error value;
  * a pandas column is a `List`; a dense label image is a `List (List Nat)`
    of pixel rows; a `coo_matrix` is identified with its dense array, its
    `data` field being the nonzero pixel values (the standard construction
    stores no explicit zeros).
-/

namespace PciSeq

/-! ## Model of `init` (`app.py` lines 108-131)

`init` reads the user `opts` dict and overrides the default configuration.
The source binds `cfg = config.DEFAULT` *without copying*, so the module-level
dictionary `config.DEFAULT` is mutated in place by every assignment
`cfg[item[0]] = val`.  The model therefore threads the module state
explicitly: `initCall state opts` returns
`((returned cfg, raised exception?), config.DEFAULT after the call)`. -/

/-- A Python value as far as `init`'s `isinstance(item[1], (int, float, list))`
check can observe it: an int, a float (carried as an exact rational), a list,
a string or `None`.  `init` never inspects the elements of a list, only its
outer type, so list values carry the gene-name strings of the documented
`exclude_genes` example. -/
inductive PyVal where
  | vint : Int → PyVal
  | vfloat : ℚ → PyVal
  | vlist : List String → PyVal
  | vstr : String → PyVal
  | vnone : PyVal
deriving DecidableEq, Repr

/-- The `isinstance(item[1], (int, float, list))` test of `app.py` line 122. -/
def PyVal.isAllowed : PyVal → Bool
  | .vint _ => true
  | .vfloat _ => true
  | .vlist _ => true
  | .vstr _ => false
  | .vnone => false

/-- The two exceptions `init` can raise: the `assert` on line 120 and the
`TypeError` on line 127. -/
inductive PyErr where
  | assertionError : PyErr
  | typeError : PyErr
deriving DecidableEq, Repr

/-- A Python dict observed as an association list with distinct keys
(insertion order kept, as Python dicts do). -/
def Config : Type := List (String × PyVal)

instance : DecidableEq Config := by
  unfold Config
  infer_instance

/-- Dict assignment `cfg[k] = v`: replace the value at an existing key in
place, append the key otherwise. -/
def setKey : Config → String → PyVal → Config
  | [], k, v => [(k, v)]
  | (k0, v0) :: rest, k, v =>
    if k0 = k then (k, v) :: rest else (k0, v0) :: setKey rest k v

/-- Dict lookup `cfg[k]`. -/
def lookupKey (cfg : Config) (k : String) : Option PyVal :=
  (cfg.find? (fun p => p.1 = k)).map (fun p => p.2)

/-- The keys of a dict, `cfg.keys()`. -/
def keysOf (cfg : Config) : List String := cfg.map (fun p => p.1)

/-- The `for item in opts.items()` loop of `init` (lines 121-129): each value
passing the `isinstance` check is written into `cfg`; the first value failing
it raises `TypeError`, leaving the assignments already made in place. -/
def applyOpts : Config → List (String × PyVal) → Config × Option PyErr
  | cfg, [] => (cfg, none)
  | cfg, (k, v) :: rest =>
    if v.isAllowed then applyOpts (setKey cfg k v) rest
    else (cfg, some PyErr.typeError)

/-- `init(opts)` of `app.py` lines 108-131, with the module state
`config.DEFAULT` made explicit.  The result is
`((returned config, raised exception?), config.DEFAULT after the call)`.
Because the source aliases `cfg = config.DEFAULT`, every assignment made to
`cfg` is also visible in the new module state. -/
def initCall (state : Config) (opts : Option (List (String × PyVal))) :
    (Config × Option PyErr) × Config :=
  match opts with
  | none => ((state, none), state)
  | some o =>
    if (keysOf o).all (fun k => (keysOf state).contains k) then
      let r := applyOpts state o
      ((r.1, r.2), r.1)
    else ((state, some PyErr.assertionError), state)

/-! ## Model of `fit` (`app.py` lines 23-97)

`fit` runs `init`, then `stage_data`, then `cell_type`, and only then calls
`write_to_disk`.  The two fallible stages are arbitrary computations here;
a Python exception in either aborts `fit` before any file is written. -/

/-- Outcome of one `fit` call: the returned `(cellData, geneData)` pair or the
propagated exception, and the files `write_to_disk` produced. -/
structure FitOutcome (α β : Type) where
  result : Except String (α × β)
  filesWritten : List String

/-- The statement sequence of `fit` (`app.py` lines 82-97): `stage_data`
(step 2), then `cell_type` (step 3), then — only on success of both —
`write_to_disk`.  `stage` and `cellType` stand for the two fallible stages,
`writeFiles cd gd` for the file names `write_to_disk` creates from the
computed tables. -/
def fitRun {σ α β : Type} (stage : Except String σ)
    (cellType : σ → Except String (α × β))
    (writeFiles : α → β → List String) : FitOutcome α β :=
  match stage with
  | .error e => ⟨.error e, []⟩
  | .ok st =>
    match cellType st with
    | .error e => ⟨.error e, []⟩
    | .ok (cd, gd) => ⟨.ok (cd, gd), writeFiles cd gd⟩

/-! ## Model of `spot_labels.py`

The label image is a dense matrix of pixel rows; `reorder_labels` flattens it,
maps every pixel value to its index in the sorted array of distinct pixel
values (`np.unique(..., return_inverse=True)`), and reshapes.  `stage_data`
first relabels when `coo.data.max() != len(set(coo.data))`, then filters the
spots to `0 <= x <= width` and `0 <= y <= height`, then reads the (relabelled)
image at `(y, x)` for each kept spot (`inside_cell`). -/

/-- `np.max` over an array of labels; `none` models the `ValueError` numpy
raises on an empty array (an image whose `coo.data` is empty). -/
def npMax : List Nat → Option Nat
  | [] => none
  | x :: xs =>
    some (match npMax xs with
      | none => x
      | some m => Nat.max x m)

/-- The stored values `coo.data` of the label image: its nonzero pixels. -/
def cooData (pixels : List Nat) : List Nat := pixels.filter (fun v => v ≠ 0)

/-- The distinct cell labels (`set(coo.data)`) of a pixel list. -/
def cellLabels (pixels : List Nat) : List Nat := (cooData pixels).dedup

/-- The sorted distinct pixel values, as returned by
`np.unique(label_image.flatten())`. -/
def uniqueSorted (pixels : List Nat) : List Nat :=
  (pixels.dedup).insertionSort (· ≤ ·)

/-- The inverse index of `np.unique(..., return_inverse=True)`: the position
of a pixel value in the sorted distinct values. -/
def relabelValue (pixels : List Nat) (v : Nat) : Nat :=
  (uniqueSorted pixels).indexOf v

/-- `reorder_labels` (`spot_labels.py` lines 44-50): replace every pixel by
its inverse index in the sorted distinct values; the shape is kept. -/
def reorder_labels (img : List (List Nat)) : List (List Nat) :=
  img.map (List.map (relabelValue img.flatten))

/-- The relabelling test of `stage_data` line 60,
`coo.data.max() != len(set(coo.data))`; `none` when `coo.data` is empty and
`.max()` raises. -/
def needsRelabel (pixels : List Nat) : Option Bool :=
  match npMax (cooData pixels) with
  | none => none
  | some m => some (decide (m ≠ (cooData pixels).dedup.length))

/-- Lines 60-62 of `stage_data`: relabel the image exactly when the test
fires. -/
def stage_relabel (img : List (List Nat)) : Option (List (List Nat)) :=
  (needsRelabel img.flatten).map (fun b => if b then reorder_labels img else img)

/-- One row of the `iss_spots` dataframe: gene name and integer pixel
coordinates. -/
structure Spot where
  gene : String
  x : Int
  y : Int
deriving DecidableEq, Repr

/-- `coo.shape[1]`, the image width. -/
def imgWidth (img : List (List Nat)) : Nat := (img.head?.getD []).length

/-- `coo.shape[0]`, the image height. -/
def imgHeight (img : List (List Nat)) : Nat := img.length

/-- The coordinate filter of `stage_data` lines 67-69:
`(x >= 0) & (x <= shape[1]) & (y >= 0) & (y <= shape[0])` (both bounds
inclusive, as in the source). -/
def coordFilter (w h : Nat) (spots : List Spot) : List Spot :=
  spots.filter (fun s =>
    decide (0 ≤ s.x ∧ s.x ≤ (w : Int) ∧ 0 ≤ s.y ∧ s.y ≤ (h : Int)))

/-- One element access `label_image[y, x]` on the csr matrix; `none` models
the `IndexError` scipy raises when the index is out of range. -/
def csrLookup (img : List (List Nat)) (y x : Nat) : Option Nat :=
  match img[y]? with
  | none => none
  | some row => row[x]?

/-- `inside_cell` (`spot_labels.py` lines 16-27): the vectorized lookup
`label_image[spots.y, spots.x]`; it succeeds only when every spot's
coordinates are in range, otherwise the whole call raises. -/
def inside_cell (img : List (List Nat)) : List Spot → Option (List Nat)
  | [] => some []
  | s :: rest =>
    match csrLookup img s.y.toNat s.x.toNat, inside_cell img rest with
    | some v, some vs => some (v :: vs)
    | _, _ => none

/-- The spot-handling part of `stage_data` (lines 60-73): relabel the image if
needed, filter the spots by the coordinate mask, then attach to each kept spot
the label found at its `(y, x)` pixel (`spots.assign(label=inc)`). -/
def stage_spots (img : List (List Nat)) (spots : List Spot) :
    Option (List (Spot × Nat)) :=
  match stage_relabel img with
  | none => none
  | some img2 =>
    let kept := coordFilter (imgWidth img2) (imgHeight img2) spots
    (inside_cell img2 kept).map (fun labels => kept.zip labels)

/-! ## Model of the inference engine

The `VarBayes` class (`pciSeq/src/cell_call/main.py`) consumed by `cell_type`
is not part of the source excerpt; the definitions of this section are
modelled from the specification (sections 4.2, 7 and 8: the spot-assignment
step, the cell-classification step, the efficiency-factor update, and the
convergence loop).  Likelihoods are exact rationals; the Poisson class
likelihood is represented by a positive rational surrogate (the exact pmf
involves the exponential function and is not rational) — the claims proved
below rely only on its positivity, never on its exact value. -/

/-- Modelled from the spec: the engine hyperparameters (section 6) — maximum
iterations, convergence tolerance, background/misread prior weight, the rate
floor that keeps likelihoods finite, and the efficiency-factor clamp range. -/
structure EngineCfg where
  max_iter : Nat
  tol : ℚ
  bgWeight : ℚ
  rateFloor : ℚ
  effLo : ℚ
  effHi : ℚ

/-- Modelled from the spec: one spot as the engine sees it — a gene index, the
ordered candidate-cell list (prior ranking order; the background pseudo-cell
is implicit at the last position), and the distance to each candidate. -/
structure SpotInfo where
  gene : Nat
  cands : List Nat
  dists : List ℚ

/-- Modelled from the spec: the immutable data a run consumes — class and gene
counts, the raw reference rate table, the class prior, cell areas and the
spot list. -/
structure ModelData where
  nClasses : Nat
  nGenes : Nat
  nCells : Nat
  rawRate : Nat → Nat → ℚ
  classPrior : Nat → ℚ
  area : Nat → ℚ
  spots : List SpotInfo

/-- Modelled from the spec: the engine's mutable state — one class-posterior
vector per cell, one candidate-posterior vector per spot (background entry
last), and one efficiency factor per gene. -/
structure EngineState where
  cellPost : List (List ℚ)
  spotPost : List (List ℚ)
  geneEff : Nat → ℚ

/-- Modelled from the spec: the floored reference rate (section 4.1:
normalization must avoid zero rates to keep log-likelihoods finite). -/
def rate (cfg : EngineCfg) (md : ModelData) (g c : Nat) : ℚ :=
  max (md.rawRate g c) cfg.rateFloor

/-- Modelled from the spec: the geometric distance-decay term favouring nearer
candidates; the exact shape is an open question of the spec, any strictly
positive decreasing shape qualifies. -/
def distDecay (d : ℚ) : ℚ := 1 / (1 + d * d)

/-- Modelled from the spec: a class-posterior vector combined with the
reference rates, `Σ_c post_c * rate g c` (the classes are indexed from `c`). -/
def weightedRate (rates : Nat → ℚ) : List ℚ → Nat → ℚ
  | [], _ => 0
  | p :: rest, c => p * rates c + weightedRate rates rest (c + 1)

/-- Modelled from the spec: normalize an unnormalized weight vector into a
probability vector. -/
def normalize (w : List ℚ) : List ℚ := w.map (fun x => x / w.sum)

/-- Modelled from the spec (section 4.2 step 1): the unnormalized weight of
each candidate cell of a spot — the cell's class-posterior combined with the
reference rate for the spot's gene, times the gene's efficiency factor, the
cell's area and the distance decay; the background pseudo-cell receives the
fixed configurable weight, at the last position. -/
def spotWeights (cfg : EngineCfg) (md : ModelData) (st : EngineState)
    (s : SpotInfo) : List ℚ :=
  ((s.cands.zip s.dists).map (fun cd =>
    weightedRate (rate cfg md s.gene) (st.cellPost.getD cd.1 []) 0 *
      st.geneEff s.gene * md.area cd.1 * distDecay cd.2)) ++ [cfg.bgWeight]

/-- Modelled from the spec: the spot-assignment step — every spot's weights
are normalized into its new posterior, from a frozen snapshot of the previous
state. -/
def spotStep (cfg : EngineCfg) (md : ModelData) (st : EngineState) :
    List (List ℚ) :=
  md.spots.map (fun s => normalize (spotWeights cfg md st s))

/-- Modelled from the spec: the posterior mass a spot currently assigns to
cell `i` (the sum of its posterior entries at candidate positions labelled
`i`). -/
def candMass (cands : List Nat) (post : List ℚ) (i : Nat) : ℚ :=
  (((cands.zip post).filter (fun cp => cp.1 == i)).map (fun cp => cp.2)).sum

/-- Modelled from the spec: the expected count of gene `g` assigned to cell
`i` — each spot of gene `g` contributes the posterior mass it assigns to the
cell. -/
def geneCellCount (md : ModelData) (spotPost : List (List ℚ)) (i g : Nat) : ℚ :=
  (((md.spots.zip spotPost).filter (fun sp => sp.1.gene == g)).map
    (fun sp => candMass sp.1.cands sp.2 i)).sum

/-- Modelled from the spec (section 4.2 step 2): the unnormalized class score
of cell `i` — the class prior times a positive surrogate of the Poisson
likelihood of the assigned expected counts; the rate floor keeps the score of
a cell with zero assigned counts positive (such cells fall back to the prior
profile). -/
def classScore (cfg : EngineCfg) (md : ModelData) (spotPost : List (List ℚ))
    (i c : Nat) : ℚ :=
  md.classPrior c *
    (((List.range md.nGenes).map
      (fun g => geneCellCount md spotPost i g * rate cfg md g c)).sum +
      cfg.rateFloor)

/-- Modelled from the spec: the cell-classification step — every cell's class
scores are normalized into its new class-posterior. -/
def cellStep (cfg : EngineCfg) (md : ModelData) (spotPost : List (List ℚ)) :
    List (List ℚ) :=
  (List.range md.nCells).map (fun i =>
    normalize ((List.range md.nClasses).map (fun c => classScore cfg md spotPost i c)))

/-- Modelled from the spec: clamp a value to the configured range. -/
def clamp (lo hi x : ℚ) : ℚ := max lo (min hi x)

/-- Modelled from the spec: the total observed assigned count of a gene. -/
def observedCount (md : ModelData) (spotPost : List (List ℚ)) (g : Nat) : ℚ :=
  ((List.range md.nCells).map (fun i => geneCellCount md spotPost i g)).sum

/-- Modelled from the spec: the total expected count of a gene under the
current class-posteriors, scaled by cell area. -/
def expectedCount (cfg : EngineCfg) (md : ModelData) (cellPost : List (List ℚ))
    (g : Nat) : ℚ :=
  ((List.range md.nCells).map (fun i =>
    md.area i * weightedRate (rate cfg md g) (cellPost.getD i []) 0)).sum

/-- Modelled from the spec (section 4.2 steps 1-3): one full iteration — the
spot step from the previous snapshot, the cell step from the new spot
posteriors, and the smoothed, clamped efficiency-factor update. -/
def engineStep (cfg : EngineCfg) (md : ModelData) (st : EngineState) :
    EngineState :=
  let sp := spotStep cfg md st
  let cp := cellStep cfg md sp
  ⟨cp, sp, fun g =>
    clamp cfg.effLo cfg.effHi
      (observedCount md sp g / (expectedCount cfg md cp g + 1))⟩

/-- Modelled from the spec: elementwise absolute difference of two posterior
vectors, summed. -/
def l1 (a b : List ℚ) : ℚ := ((a.zip b).map (fun xy => |xy.1 - xy.2|)).sum

/-- Modelled from the spec: total absolute change between two posterior
tables. -/
def l1s (A B : List (List ℚ)) : ℚ := ((A.zip B).map (fun ab => l1 ab.1 ab.2)).sum

/-- Modelled from the spec (section 4.2 step 4): the convergence metric — the
total change in all spot- and cell-posteriors since the previous iteration. -/
def delta (s t : EngineState) : ℚ :=
  l1s s.cellPost t.cellPost + l1s s.spotPost t.spotPost

/-- Modelled from the spec: the iteration loop — stop with `true` (converged)
when the change falls below the tolerance, stop with `false` when the
iteration budget is exhausted; in either case the final state is returned,
never an exception. -/
def engineLoop (cfg : EngineCfg) (md : ModelData) :
    Nat → EngineState → EngineState × Bool
  | 0, st => (st, false)
  | Nat.succ n, st =>
    let st2 := engineStep cfg md st
    if delta st st2 ≤ cfg.tol then (st2, true) else engineLoop cfg md n st2

/-- Modelled from the spec: the engine's result — the best-effort final state
together with the `NonConvergenceWarning` flag surfaced to the caller. -/
structure EngineResult where
  state : EngineState
  nonConvergenceWarning : Bool

/-- Modelled from the spec: the initial state — uniform class posteriors,
spot posteriors proportional to geometric proximity (plus the background
weight), efficiency factors at 1.0. -/
def initState (cfg : EngineCfg) (md : ModelData) : EngineState :=
  ⟨List.replicate md.nCells (List.replicate md.nClasses ((md.nClasses : ℚ))⁻¹),
   md.spots.map (fun s =>
     normalize ((s.cands.zip s.dists).map (fun cd => distDecay cd.2) ++
       [cfg.bgWeight])),
   fun _ => 1⟩

/-- Modelled from the spec: a full run — iterate up to `max_iter` times from
the initial state; the warning flag is set exactly when the budget was
exhausted before the tolerance was met. -/
def runEngine (cfg : EngineCfg) (md : ModelData) : EngineResult :=
  let r := engineLoop cfg md cfg.max_iter (initState cfg md)
  ⟨r.1, !r.2⟩

/-- A probability vector: non-negative entries summing to one. -/
def IsDist (v : List ℚ) : Prop := (∀ x ∈ v, 0 ≤ x) ∧ v.sum = 1

/-- Well-formedness of the configuration and data, as required by the spec's
data-model invariants: at least one class, positive rate floor, background
weight, efficiency clamp lower bound, class priors and areas, and candidate
indices that address existing cells. -/
structure WfData (cfg : EngineCfg) (md : ModelData) : Prop where
  nClasses_pos : 0 < md.nClasses
  floor_pos : 0 < cfg.rateFloor
  bg_pos : 0 < cfg.bgWeight
  effLo_pos : 0 < cfg.effLo
  prior_pos : ∀ c, 0 < md.classPrior c
  area_pos : ∀ i, 0 < md.area i
  cands_lt : ∀ s ∈ md.spots, ∀ c ∈ s.cands, c < md.nCells

/-- The engine-state invariant of the spec's data model: one probability
vector per cell, probability vectors for spots, strictly positive efficiency
factors. -/
structure WfState (md : ModelData) (st : EngineState) : Prop where
  cell_len : st.cellPost.length = md.nCells
  cell_dist : ∀ cp ∈ st.cellPost, IsDist cp
  spot_dist : ∀ v ∈ st.spotPost, IsDist v
  eff_pos : ∀ g, 0 < st.geneEff g

/-- Modelled from the spec: `np.max` of a candidate-probability vector, the
value of the most probable candidate. -/
def listMax : List ℚ → ℚ
  | [] => 0
  | [x] => x
  | x :: y :: rest => max x (listMax (y :: rest))

/-- Modelled from the spec: `np.argmax` — the index of the *first* maximal
entry of a probability vector, so ties are broken by the candidate ranking
order, never by iteration order. -/
def argmaxIdx : List ℚ → Nat
  | [] => 0
  | [_] => 0
  | x :: y :: rest => if listMax (y :: rest) ≤ x then 0 else argmaxIdx (y :: rest) + 1

/-- Modelled from the spec (section 3, invariants): the spots whose gene is
part of the reference-atlas vocabulary; only these take part in inference. -/
def keepSpots (refGenes : List String) (spots : List Spot) : List Spot :=
  spots.filter (fun s => refGenes.contains s.gene)

/-- Modelled from the spec (section 4.1): the gene-vocabulary reconciliation —
`SchemaError` exactly when the reference shares no genes with the spots,
otherwise the spots restricted to the shared vocabulary. -/
def vocabCheck (refGenes : List String) (spots : List Spot) :
    Except String (List Spot) :=
  if (keepSpots refGenes spots).isEmpty then Except.error ("SchemaError")
  else Except.ok (keepSpots refGenes spots)

/-- A one-cell, one-class, one-gene, no-spot model used by the witnesses. -/
def tinyCfg : EngineCfg := ⟨1, -1, 1, 1, 1/2, 2⟩

/-- The data of the one-cell witness model. -/
def tinyMd : ModelData := ⟨1, 1, 1, fun _ _ => 1, fun _ => 1, fun _ => 1, []⟩

/-! ## Theorems about `init` and `fit` -/

theorem lookup_setKey_self (cfg : Config) (k : String) (v : PyVal) :
    lookupKey (setKey cfg k v) k = some v := by
  induction cfg with
  | nil => simp [setKey, lookupKey]
  | cons p rest ih =>
    by_cases h : p.1 = k
    · simp [setKey, h, lookupKey]
    · simp [setKey, h, lookupKey, List.find?] at ih ⊢
      simpa [h] using ih

theorem lookup_setKey_other (cfg : Config) (k k' : String) (v : PyVal) (h : k' ≠ k) :
    lookupKey (setKey cfg k v) k' = lookupKey cfg k' := by
  induction cfg with
  | nil => simp [setKey, lookupKey, List.find?, Ne.symm h]
  | cons p rest ih =>
    by_cases hp : p.1 = k
    · simp [setKey, hp, lookupKey, List.find?, Ne.symm h, hp ▸ (Ne.symm h)]
    · simp only [setKey, hp, if_false, lookupKey, List.find?] at ih ⊢
      by_cases hk : p.1 = k'
      · simp [hk]
      · simp [hk]
        exact ih

theorem applyOpts_err (opts : List (String × PyVal)) :
    ∀ cfg : Config,
      ((applyOpts cfg opts).2 = some PyErr.typeError ↔
        ∃ p ∈ opts, p.2.isAllowed = false) ∧
      (applyOpts cfg opts).2 ≠ some PyErr.assertionError := by
  induction opts with
  | nil => intro cfg; simp [applyOpts]
  | cons p rest ih =>
    intro cfg
    by_cases hp : p.2.isAllowed
    · simp only [applyOpts, hp, if_true]
      constructor
      · rw [(ih (setKey cfg p.1 p.2)).1]
        simp [hp]
      · exact (ih _).2
    · simp only [applyOpts, hp, if_false]
      constructor
      · simp only [Bool.not_eq_true] at hp
        simp [hp]
      · simp

theorem lookup_applyOpts_notmem (opts : List (String × PyVal)) :
    ∀ cfg : Config, ∀ k : String, k ∉ opts.map Prod.fst →
      lookupKey (applyOpts cfg opts).1 k = lookupKey cfg k := by
  induction opts with
  | nil => intro cfg k _; simp [applyOpts]
  | cons p rest ih =>
    intro cfg k hk
    simp only [List.map_cons, List.mem_cons] at hk
    push_neg at hk
    by_cases hp : p.2.isAllowed
    · simp only [applyOpts, hp, if_true]
      rw [ih _ _ hk.2, lookup_setKey_other _ _ _ _ hk.1]
    · simp [applyOpts, hp]

theorem lookup_applyOpts_mem (opts : List (String × PyVal)) :
    ∀ cfg : Config, (opts.map Prod.fst).Nodup →
      (applyOpts cfg opts).2 = none →
      ∀ p ∈ opts, lookupKey (applyOpts cfg opts).1 p.1 = some p.2 := by
  induction opts with
  | nil => intro cfg _ _ p hp; simp at hp
  | cons q rest ih =>
    intro cfg hnd herr p hp
    simp only [List.map_cons, List.nodup_cons] at hnd
    by_cases hq : q.2.isAllowed
    · simp only [applyOpts, hq, if_true] at herr ⊢
      rcases List.mem_cons.mp hp with h | h
      · subst h
        rw [lookup_applyOpts_notmem _ _ _ hnd.1, lookup_setKey_self]
      · exact ih _ hnd.2 herr p h
    · simp [applyOpts, hq] at herr

/-- Claim C1: the claim demands that configuration not be process-wide state —
option values of a first `init` call must not change the defaults a second
call sees, and a call with `opts=None` must return the defaults unchanged.
The code violates this: `init` binds `cfg = config.DEFAULT` without copying
and assigns into it, so the module-level dictionary is mutated.  Evaluating
the model: with defaults `{max_iter: 100}`, after `init({max_iter: 5})` a
second call `init(None)` returns `{max_iter: 5}`, not the original
defaults. -/
theorem init_mutates_default_config :
    (initCall ((initCall [("max_iter", PyVal.vint 100)]
        (some [("max_iter", PyVal.vint 5)])).2) none).1.1 =
      [("max_iter", PyVal.vint 5)] ∧
    (initCall ((initCall [("max_iter", PyVal.vint 100)]
        (some [("max_iter", PyVal.vint 5)])).2) none).1.1 ≠
      [("max_iter", PyVal.vint 100)] := by
  decide

/-- Claim C10: for every `opts` dict passed to `init`: a key outside the
default configuration keys raises `AssertionError`; otherwise a value that is
neither an int, a float nor a list raises `TypeError`; and when no error is
raised, the returned configuration maps each `opts` key to exactly the value
supplied for it. -/
theorem init_opts_validation (state : Config) (opts : List (String × PyVal))
    (hnd : (opts.map Prod.fst).Nodup) :
    ((initCall state (some opts)).1.2 = some PyErr.assertionError ↔
      ¬ ∀ k ∈ keysOf opts, k ∈ keysOf state) ∧
    ((initCall state (some opts)).1.2 = some PyErr.typeError ↔
      ((∀ k ∈ keysOf opts, k ∈ keysOf state) ∧
        ∃ p ∈ opts, p.2.isAllowed = false)) ∧
    ((initCall state (some opts)).1.2 = none →
      ∀ p ∈ opts, lookupKey (initCall state (some opts)).1.1 p.1 = some p.2) := by
  have hbridge : ((keysOf opts).all (fun k => (keysOf state).contains k) = true) ↔
      ∀ k ∈ keysOf opts, k ∈ keysOf state := by
    simp [List.all_eq_true]
  by_cases hsub : (keysOf opts).all (fun k => (keysOf state).contains k)
  · have hsub' := hbridge.mp hsub
    simp only [initCall, hsub, if_true]
    refine ⟨?_, ?_, ?_⟩
    · exact iff_of_false (applyOpts_err opts state).2 (not_not_intro hsub')
    · rw [(applyOpts_err opts state).1]
      exact ⟨fun h => ⟨hsub', h⟩, fun h => h.2⟩
    · intro herr
      exact lookup_applyOpts_mem opts state hnd herr
  · have hsub' := (not_iff_not.mpr hbridge).mp hsub
    simp only [initCall, hsub, if_false]
    refine ⟨?_, ?_, ?_⟩
    · simp [hsub']
    · simp [hsub']
    · simp

/-- Witness for C10 at a concrete input: overriding `max_iter` in a two-key
default configuration raises nothing and the returned configuration holds the
supplied value. -/
theorem init_opts_validation_witness :
    lookupKey (initCall
      [("max_iter", PyVal.vint 100), ("exclude_genes", PyVal.vlist [])]
      (some [("max_iter", PyVal.vint 5)])).1.1 "max_iter" =
      some (PyVal.vint 5) := by
  have h := init_opts_validation
    [("max_iter", PyVal.vint 100), ("exclude_genes", PyVal.vlist [])]
    [("max_iter", PyVal.vint 5)] (by decide)
  exact h.2.2 (by decide) ("max_iter", PyVal.vint 5) (by decide)

/-- Claim C4: if preprocessing or cell typing raises, `fit` produces no output
files; `write_to_disk` runs only after `cellData` and `geneData` have been
fully computed, so a fatal error never leaves partial output on disk. -/
theorem fit_no_partial_output {σ α β : Type} (stage : Except String σ)
    (cellType : σ → Except String (α × β)) (writeFiles : α → β → List String) :
    ((∃ e, stage = .error e) ∨ (∃ st e, stage = .ok st ∧ cellType st = .error e) →
      (fitRun stage cellType writeFiles).filesWritten = [] ∧
      ∃ e, (fitRun stage cellType writeFiles).result = .error e) ∧
    ((fitRun stage cellType writeFiles).filesWritten ≠ [] →
      ∃ cd gd, (fitRun stage cellType writeFiles).result = Except.ok (cd, gd) ∧
        (fitRun stage cellType writeFiles).filesWritten = writeFiles cd gd) := by
  constructor
  · rintro (⟨e, he⟩ | ⟨st, e, hst, he⟩)
    · subst he; exact ⟨rfl, e, rfl⟩
    · subst hst
      refine ⟨?_, e, ?_⟩ <;> simp [fitRun, he]
  · intro hne
    match hs : stage with
    | .error e => simp [fitRun, hs] at hne
    | .ok st =>
      match hc : cellType st with
      | .error e => simp [fitRun, hs, hc] at hne
      | .ok (cd, gd) => exact ⟨cd, gd, by simp [fitRun, hs, hc]⟩

/-- Witness for C4 at a concrete input: a failing preprocessing stage yields
no files. -/
theorem fit_no_partial_output_witness :
    (fitRun (Except.error ("stage failed") : Except String Nat)
      (fun st => Except.ok (st, st)) (fun _ _ => ["cellData.tsv"])).filesWritten =
      [] :=
  ((fit_no_partial_output (Except.error ("stage failed") : Except String Nat)
    (fun st => Except.ok (st, st)) (fun _ _ => ["cellData.tsv"])).1
    (Or.inl ⟨"stage failed", rfl⟩)).1

/-! ## Theorems about `spot_labels.py` -/

theorem npMax_eq_none {l : List Nat} : npMax l = none ↔ l = [] := by
  cases l <;> simp [npMax]

theorem npMax_spec {l : List Nat} {m : Nat} (h : npMax l = some m) :
    m ∈ l ∧ ∀ x ∈ l, x ≤ m := by
  induction l generalizing m with
  | nil => simp [npMax] at h
  | cons a t ih =>
    match ht : npMax t with
    | none =>
      have htn : t = [] := npMax_eq_none.mp ht
      subst htn
      simp only [npMax, Option.some_inj] at h
      subst h
      simp
    | some m0 =>
      simp only [npMax, ht, Option.some_inj] at h
      obtain ⟨hm0, hb⟩ := ih ht
      subst h
      refine ⟨?_, ?_⟩
      · rcases Nat.le_total a m0 with hc | hc
        · simp [Nat.max_eq_right hc, hm0]
        · simp [Nat.max_eq_left hc]
      · intro x hx
        rcases List.mem_cons.mp hx with rfl | hx
        · exact Nat.le_max_left _ _
        · exact le_trans (hb x hx) (Nat.le_max_right _ _)

theorem uniqueSorted_nodup (p : List Nat) : (uniqueSorted p).Nodup :=
  ((List.perm_insertionSort _ _).nodup_iff).mpr (List.nodup_dedup p)

theorem uniqueSorted_sorted (p : List Nat) : List.Sorted (· ≤ ·) (uniqueSorted p) :=
  List.sorted_insertionSort _ _

theorem mem_uniqueSorted {p : List Nat} {a : Nat} : a ∈ uniqueSorted p ↔ a ∈ p := by
  rw [uniqueSorted, List.mem_insertionSort, List.mem_dedup]

theorem uniqueSorted_length (p : List Nat) : (uniqueSorted p).length = p.dedup.length :=
  (List.perm_insertionSort _ _).length_eq

theorem relabelValue_zero {p : List Nat} (h0 : (0 : Nat) ∈ p) :
    relabelValue p 0 = 0 := by
  have hmem : (0 : Nat) ∈ uniqueSorted p := mem_uniqueSorted.mpr h0
  have hlen : 0 < (uniqueSorted p).length :=
    List.length_pos.mpr (List.ne_nil_of_mem hmem)
  obtain ⟨i, hi, hget⟩ := List.mem_iff_getElem.mp hmem
  have hle : (uniqueSorted p)[0] ≤ (uniqueSorted p)[i] := by
    rcases Nat.eq_zero_or_pos i with rfl | hpos
    · exact le_refl _
    · show (uniqueSorted p).get ⟨0, hlen⟩ ≤ (uniqueSorted p).get ⟨i, hi⟩
      exact List.Sorted.rel_get_of_lt (uniqueSorted_sorted p) (Fin.mk_lt_mk.mpr hpos)
  rw [hget] at hle
  have hhead : (uniqueSorted p)[0] = 0 := Nat.le_zero.mp hle
  have hidx := List.indexOf_getElem (uniqueSorted_nodup p) 0 hlen
  rw [hhead] at hidx
  exact hidx

theorem relabelValue_inj {p : List Nat} {v w : Nat} (hv : v ∈ p) (hw : w ∈ p) :
    relabelValue p v = relabelValue p w ↔ v = w :=
  List.indexOf_inj (mem_uniqueSorted.mpr hv) (mem_uniqueSorted.mpr hw)

theorem relabelValue_pos {p : List Nat} {v : Nat} (h0 : (0 : Nat) ∈ p)
    (hv : v ∈ p) (hne : v ≠ 0) : 1 ≤ relabelValue p v := by
  rcases Nat.eq_zero_or_pos (relabelValue p v) with hz | hp
  · exfalso
    apply hne
    have hvz : relabelValue p v = relabelValue p 0 := by
      rw [hz, relabelValue_zero h0]
    exact (relabelValue_inj hv h0).mp hvz
  · exact hp

theorem relabelValue_lt {p : List Nat} {v : Nat} (hv : v ∈ p) :
    relabelValue p v < (uniqueSorted p).length :=
  List.indexOf_lt_length.mpr (mem_uniqueSorted.mpr hv)

theorem cooData_mem {p : List Nat} {v : Nat} : v ∈ cooData p ↔ v ∈ p ∧ v ≠ 0 := by
  simp [cooData]

theorem mem_cellLabels {p : List Nat} {v : Nat} :
    v ∈ cellLabels p ↔ v ∈ p ∧ v ≠ 0 := by
  rw [cellLabels, List.mem_dedup, cooData_mem]

theorem cellLabels_length_succ {p : List Nat} (h0 : (0 : Nat) ∈ p) :
    (cellLabels p).length + 1 = (uniqueSorted p).length := by
  have h1 : (cellLabels p).length = (cooData p).toFinset.card := by
    rw [cellLabels, ← List.card_toFinset]
  have h2 : (cooData p).toFinset = p.toFinset.erase 0 := by
    rw [cooData, List.toFinset_filter]
    rw [← Finset.filter_ne' p.toFinset 0]
    apply Finset.filter_congr
    intro x _
    simp
  have h3 : (p.toFinset.erase 0).card = p.toFinset.card - 1 :=
    Finset.card_erase_of_mem (List.mem_toFinset.mpr h0)
  have h4 : 1 ≤ p.toFinset.card :=
    Finset.card_pos.mpr ⟨0, List.mem_toFinset.mpr h0⟩
  rw [uniqueSorted_length, ← List.card_toFinset, h1, h2, h3]
  omega

theorem mapped_mem_iff {p : List Nat} {m : Nat} :
    m ∈ p.map (relabelValue p) ↔ m < (uniqueSorted p).length := by
  constructor
  · intro hm
    obtain ⟨v, hv, rfl⟩ := List.mem_map.mp hm
    exact relabelValue_lt hv
  · intro hm
    have hmem : (uniqueSorted p)[m] ∈ p :=
      mem_uniqueSorted.mp (List.getElem_mem hm)
    have hidx : relabelValue p ((uniqueSorted p)[m]) = m :=
      List.indexOf_getElem (uniqueSorted_nodup p) m hm
    exact List.mem_map.mpr ⟨(uniqueSorted p)[m], hmem, hidx⟩

theorem relabelled_cellLabels {p : List Nat} (h0 : (0 : Nat) ∈ p) (m : Nat) :
    m ∈ cellLabels (p.map (relabelValue p)) ↔
      1 ≤ m ∧ m ≤ (cellLabels p).length := by
  rw [mem_cellLabels, mapped_mem_iff]
  have hK := cellLabels_length_succ h0
  omega

theorem labels_eq_Icc_of_max {p : List Nat} {m : Nat}
    (hmax : npMax (cooData p) = some m) (hm : m = (cellLabels p).length) :
    ∀ x, x ∈ cellLabels p ↔ 1 ≤ x ∧ x ≤ (cellLabels p).length := by
  obtain ⟨hmem, hbound⟩ := npMax_spec hmax
  have hsub : (cellLabels p).toFinset ⊆ Finset.Icc 1 (cellLabels p).length := by
    intro x hx
    rw [List.mem_toFinset, cellLabels, List.mem_dedup] at hx
    have hx0 : x ≠ 0 := (cooData_mem.mp hx).2
    have hxm : x ≤ m := hbound x hx
    rw [Finset.mem_Icc]
    omega
  have hcard : (Finset.Icc 1 (cellLabels p).length).card ≤
      (cellLabels p).toFinset.card := by
    rw [Nat.card_Icc]
    have hnd : (cellLabels p).Nodup := List.nodup_dedup _
    rw [List.card_toFinset, List.dedup_eq_self.mpr hnd]
    omega
  have heq := Finset.eq_of_subset_of_card_le hsub hcard
  intro x
  rw [← List.mem_toFinset, heq, Finset.mem_Icc]

theorem max_eq_of_labels_Icc {p : List Nat} {m : Nat}
    (hmax : npMax (cooData p) = some m)
    (hIcc : ∀ x, x ∈ cellLabels p ↔ 1 ≤ x ∧ x ≤ (cellLabels p).length) :
    m = (cellLabels p).length := by
  obtain ⟨hmem, hbound⟩ := npMax_spec hmax
  have hmD : m ∈ cellLabels p := by
    rw [cellLabels, List.mem_dedup]
    exact hmem
  have h1 : m ≤ (cellLabels p).length := ((hIcc m).mp hmD).2
  have hlen : 1 ≤ (cellLabels p).length := by
    have := (hIcc m).mp hmD
    omega
  have hND : (cellLabels p).length ∈ cellLabels p := (hIcc _).mpr ⟨hlen, le_refl _⟩
  have h2 : (cellLabels p).length ≤ m := by
    rw [cellLabels, List.mem_dedup] at hND
    exact hbound _ hND
  omega

/-- Counterexample for C2: an image with a single cell pixel labelled 5 and no
background pixel.  The relabelling test fires (5 is not the count of distinct
labels), but `reorder_labels` maps the smallest pixel value to 0, so the one
cell label becomes 0 — the relabelled image has no cell label at all instead
of the claimed `{1}`. -/
theorem reorder_labels_no_background_counterexample :
    stage_relabel [[5]] = some [[0]] ∧
      cellLabels ([[5]] : List (List Nat)).flatten = [5] ∧
      cellLabels ([[0]] : List (List Nat)).flatten = [] := by
  decide

/-- Claim C2 (amended: the label image must contain at least one background
pixel and at least one cell pixel): `stage_data` relabels exactly when the
distinct stored cell labels are not `1..N`; the relabelled image keeps the
pixel count, maps background pixels to 0 and only them, identifies two pixels
if and only if they had the same old label, and its distinct cell labels are
exactly `1..N`; and when the labels already are `1..N`, the image is left
unchanged. -/
theorem stage_data_relabels_sequential (img : List (List Nat))
    (h0 : (0 : Nat) ∈ img.flatten)
    (hc : cooData img.flatten ≠ []) :
    ∃ img2, stage_relabel img = some img2 ∧
      img2.flatten.length = img.flatten.length ∧
      (∀ i, i < img.flatten.length →
        (img2.flatten.getD i 0 = 0 ↔ img.flatten.getD i 0 = 0)) ∧
      (∀ i j, i < img.flatten.length → j < img.flatten.length →
        (img2.flatten.getD i 0 = img2.flatten.getD j 0 ↔
          img.flatten.getD i 0 = img.flatten.getD j 0)) ∧
      (∀ m, m ∈ cellLabels img2.flatten ↔
        1 ≤ m ∧ m ≤ (cellLabels img.flatten).length) ∧
      ((∀ m, m ∈ cellLabels img.flatten ↔
          1 ≤ m ∧ m ≤ (cellLabels img.flatten).length) → img2 = img) := by
  set p := img.flatten with hp
  obtain ⟨m, hm⟩ : ∃ m, npMax (cooData p) = some m := by
    cases hmx : npMax (cooData p) with
    | none => exact absurd (npMax_eq_none.mp hmx) hc
    | some m => exact ⟨m, rfl⟩
  by_cases hmn : m = (cellLabels p).length
  · refine ⟨img, ?_, rfl, fun i _ => Iff.rfl, fun i j _ _ => Iff.rfl, ?_,
      fun _ => rfl⟩
    · rw [stage_relabel, needsRelabel, ← hp, hm]
      simp [cellLabels] at hmn
      simp [hmn, cellLabels]
    · exact labels_eq_Icc_of_max hm hmn
  · have hflat : (reorder_labels img).flatten = p.map (relabelValue p) := by
      rw [reorder_labels, List.map_flatten, hp]
    refine ⟨reorder_labels img, ?_, ?_, ?_, ?_, ?_, ?_⟩
    · rw [stage_relabel, needsRelabel, ← hp, hm]
      have hne : m ≠ (cooData p).dedup.length := by
        simpa [cellLabels] using hmn
      simp [hne]
    · rw [hflat, List.length_map]
    · intro i hi
      rw [hflat, List.getD_eq_getElem _ _ (by simpa using hi),
        List.getD_eq_getElem _ _ hi, List.getElem_map]
      constructor
      · intro hz
        by_contra hne
        have := relabelValue_pos h0 (List.getElem_mem hi) hne
        omega
      · intro hz
        rw [hz]
        exact relabelValue_zero h0
    · intro i j hi hj
      rw [hflat, List.getD_eq_getElem _ _ (by simpa using hi),
        List.getD_eq_getElem _ _ (by simpa using hj),
        List.getD_eq_getElem _ _ hi, List.getD_eq_getElem _ _ hj,
        List.getElem_map, List.getElem_map]
      exact relabelValue_inj (List.getElem_mem hi) (List.getElem_mem hj)
    · intro mm
      rw [hflat]
      exact relabelled_cellLabels h0 mm
    · intro hIcc
      exact absurd (max_eq_of_labels_Icc hm hIcc) hmn

/-- Witness for C2 at a concrete input: the image `[[0, 2]]` (one background
pixel, one cell labelled 2) is relabelled and its cell labels become exactly
`{1}`. -/
theorem stage_data_relabels_sequential_witness :
    ∃ img2, stage_relabel [[0, 2]] = some img2 ∧
      ∀ m, m ∈ cellLabels img2.flatten ↔
        1 ≤ m ∧ m ≤ (cellLabels ([[0, 2]] : List (List Nat)).flatten).length := by
  obtain ⟨img2, heq, _, _, _, hrange, _⟩ :=
    stage_data_relabels_sequential [[0, 2]] (by decide) (by decide)
  exact ⟨img2, heq, hrange⟩

theorem inside_cell_spec (img : List (List Nat)) :
    ∀ (l : List Spot) (res : List Nat), inside_cell img l = some res →
      ∀ sv ∈ l.zip res, csrLookup img sv.1.y.toNat sv.1.x.toNat = some sv.2 := by
  intro l
  induction l with
  | nil => intro res _ sv hsv; simp at hsv
  | cons s rest ih =>
    intro res hres sv hsv
    match hv : csrLookup img s.y.toNat s.x.toNat, hvs : inside_cell img rest with
    | some v, some vs =>
      simp only [inside_cell, hv, hvs] at hres
      have hres2 : v :: vs = res := Option.some_inj.mp hres
      subst hres2
      rw [List.zip_cons_cons] at hsv
      rcases List.mem_cons.mp hsv with rfl | hmem
      · exact hv
      · exact ih vs hvs sv hmem
    | some v, none => simp [inside_cell, hv, hvs] at hres
    | none, some vs => simp [inside_cell, hv, hvs] at hres
    | none, none => simp [inside_cell, hv, hvs] at hres

theorem csrLookup_reorder (img : List (List Nat)) (y x : Nat) :
    csrLookup (reorder_labels img) y x =
      (csrLookup img y x).map (relabelValue img.flatten) := by
  rw [csrLookup, csrLookup, reorder_labels, List.getElem?_map]
  cases img[y]? with
  | none => rfl
  | some row => simp

theorem csrLookup_mem {img : List (List Nat)} {y x v : Nat}
    (h : csrLookup img y x = some v) : v ∈ img.flatten := by
  rw [csrLookup] at h
  match hy : img[y]? with
  | none => rw [hy] at h; exact absurd h (by simp)
  | some row =>
    rw [hy] at h
    exact List.mem_flatten.mpr ⟨row, List.getElem?_mem hy, List.getElem?_mem h⟩

/-- Counterexample for C3: in the background-free image `[[7]]` the spot at
`(0, 0)` lies inside cell 7, yet after the forced relabelling the stored value
there is 0, so the spot's attached label is the background label although a
segmented cell contains it. -/
theorem spot_label_conflates_cell_with_background :
    stage_spots [[7]] [⟨"g", 0, 0⟩] = some [(⟨"g", 0, 0⟩, 0)] ∧
      csrLookup [[7]] 0 0 = some 7 := by
  decide

/-- Claim C3 (amended: the label image must contain at least one background
pixel): every spot retained by `stage_data` carries exactly the value of the
(possibly relabelled) image at its `(y, x)` pixel, and that label is 0 exactly
when the original segmentation has no cell at that pixel. -/
theorem stage_data_spot_label_matches_image (img : List (List Nat))
    (spots : List Spot) (h0 : (0 : Nat) ∈ img.flatten)
    (out : List (Spot × Nat)) (hout : stage_spots img spots = some out) :
    ∃ img2, stage_relabel img = some img2 ∧
      ∀ sl ∈ out,
        csrLookup img2 sl.1.y.toNat sl.1.x.toNat = some sl.2 ∧
        ∃ v, csrLookup img sl.1.y.toNat sl.1.x.toNat = some v ∧
          (sl.2 = 0 ↔ v = 0) := by
  match hrel : stage_relabel img with
  | none =>
    rw [stage_spots, hrel] at hout
    exact absurd hout (by simp)
  | some img2 =>
    refine ⟨img2, rfl, ?_⟩
    rw [stage_spots, hrel] at hout
    simp only [Option.map_eq_some'] at hout
    obtain ⟨labels, hlab, hzip⟩ := hout
    intro sl hsl
    have hlook := inside_cell_spec img2 _ labels hlab sl (hzip ▸ hsl)
    refine ⟨hlook, ?_⟩
    rw [stage_relabel] at hrel
    match hb : needsRelabel img.flatten with
    | none =>
      rw [hb] at hrel
      exact absurd hrel (by simp)
    | some b =>
      rw [hb] at hrel
      simp only [Option.map_some', Option.some_inj] at hrel
      by_cases hbv : b = true
      · subst hbv
        rw [if_pos rfl] at hrel
        subst hrel
        rw [csrLookup_reorder] at hlook
        match hv : csrLookup img sl.1.y.toNat sl.1.x.toNat with
        | none =>
          rw [hv] at hlook
          exact absurd hlook (by simp)
        | some v =>
          rw [hv] at hlook
          simp only [Option.map_some', Option.some_inj] at hlook
          refine ⟨v, rfl, ?_⟩
          have hvmem : v ∈ img.flatten := csrLookup_mem hv
          constructor
          · intro hz
            by_contra hne
            have := relabelValue_pos h0 hvmem hne
            omega
          · intro hz
            subst hz
            rw [← hlook, relabelValue_zero h0]
      · have hbf : b = false := Bool.eq_false_iff.mpr hbv
        subst hbf
        rw [if_neg (by simp)] at hrel
        subst hrel
        exact ⟨sl.2, hlook, Iff.rfl⟩

/-- Witness for C3 at a concrete input: on the image `[[0, 2]]` the spot at
`(x, y) = (1, 0)` is retained with label 1, the relabelled value at its pixel,
and the original pixel holds cell 2, consistently nonzero. -/
theorem stage_data_spot_label_matches_image_witness :
    ∃ img2, stage_relabel [[0, 2]] = some img2 ∧
      ∀ sl ∈ [((⟨"g", 1, 0⟩ : Spot), 1)],
        csrLookup img2 sl.1.y.toNat sl.1.x.toNat = some sl.2 ∧
        ∃ v, csrLookup [[0, 2]] sl.1.y.toNat sl.1.x.toNat = some v ∧
          (sl.2 = 0 ↔ v = 0) :=
  stage_data_spot_label_matches_image [[0, 2]] [⟨"g", 1, 0⟩] (by decide)
    [(⟨"g", 1, 0⟩, 1)] (by decide)

/-- Claim C9: the coordinate filter keeps spots with `x` equal to the image
width (the mask uses an inclusive upper bound `x <= shape[1]`), and for such a
spot the subsequent `label_image[y, x]` lookup is out of bounds and fails —
scipy raises `IndexError` — contradicting the claim that the lookup never
fails.  Evaluated on a 1×1 image with a spot at `x = 1`. -/
theorem coord_filter_out_of_bounds_lookup_fails :
    coordFilter 1 1 [⟨"g", 1, 0⟩] = [⟨"g", 1, 0⟩] ∧
      csrLookup [[1]] 0 1 = none ∧
      stage_spots [[1]] [⟨"g", 1, 0⟩] = none := by
  decide

/-! ## Theorems about the inference engine model -/

theorem sum_map_div (l : List ℚ) (s : ℚ) :
    (l.map (fun x => x / s)).sum = l.sum / s := by
  induction l with
  | nil => simp
  | cons a t ih => simp [ih, add_div]

theorem normalize_isDist {w : List ℚ} (hpos : ∀ x ∈ w, 0 < x) (hne : w ≠ []) :
    IsDist (normalize w) := by
  have hsum : 0 < w.sum := List.sum_pos w hpos hne
  constructor
  · intro x hx
    obtain ⟨y, hy, rfl⟩ := List.mem_map.mp hx
    exact div_nonneg (le_of_lt (hpos y hy)) (le_of_lt hsum)
  · rw [normalize, sum_map_div, div_self (ne_of_gt hsum)]

theorem weightedRate_ge (rates : Nat → ℚ) (f : ℚ) (hf : ∀ c, f ≤ rates c) :
    ∀ (l : List ℚ) (c : Nat), (∀ x ∈ l, 0 ≤ x) →
      f * l.sum ≤ weightedRate rates l c := by
  intro l
  induction l with
  | nil => intro c _; simp [weightedRate]
  | cons p rest ih =>
    intro c hnn
    have hp : 0 ≤ p := hnn p (List.mem_cons_self p rest)
    have h1 : f * p ≤ p * rates c := by
      rw [mul_comm]
      exact mul_le_mul_of_nonneg_left (hf c) hp
    have h2 : f * rest.sum ≤ weightedRate rates rest (c + 1) :=
      ih (c + 1) (fun x hx => hnn x (List.mem_cons_of_mem p hx))
    calc f * (p :: rest).sum = f * p + f * rest.sum := by
          rw [List.sum_cons, mul_add]
    _ ≤ p * rates c + weightedRate rates rest (c + 1) := add_le_add h1 h2
    _ = weightedRate rates (p :: rest) c := rfl

theorem weightedRate_pos (cfg : EngineCfg) (md : ModelData) (g : Nat)
    {cp : List ℚ} (hfloor : 0 < cfg.rateFloor) (hcp : IsDist cp) (c : Nat) :
    0 < weightedRate (rate cfg md g) cp c := by
  have hge := weightedRate_ge (rate cfg md g) cfg.rateFloor
    (fun c => le_max_right _ _) cp c hcp.1
  rw [hcp.2, mul_one] at hge
  exact lt_of_lt_of_le hfloor hge

theorem distDecay_pos (d : ℚ) : 0 < distDecay d := by
  rw [distDecay]
  have h : 0 < 1 + d * d := by nlinarith [mul_self_nonneg d]
  exact div_pos one_pos h

theorem spotWeights_pos {cfg : EngineCfg} {md : ModelData} {st : EngineState}
    {s : SpotInfo} (hwf : WfData cfg md) (hst : WfState md st) (hs : s ∈ md.spots) :
    ∀ x ∈ spotWeights cfg md st s, 0 < x := by
  intro x hx
  rw [spotWeights, List.mem_append] at hx
  rcases hx with hx | hx
  · obtain ⟨cd, hcd, rfl⟩ := List.mem_map.mp hx
    have hc : cd.1 < md.nCells := hwf.cands_lt s hs cd.1 (List.of_mem_zip hcd).1
    have hlen : cd.1 < st.cellPost.length := by
      rw [hst.cell_len]
      exact hc
    have hcp : IsDist (st.cellPost.getD cd.1 []) := by
      rw [List.getD_eq_getElem _ _ hlen]
      exact hst.cell_dist _ (List.getElem_mem hlen)
    have h1 := weightedRate_pos cfg md s.gene hwf.floor_pos hcp 0
    have h2 := hst.eff_pos s.gene
    have h3 := hwf.area_pos cd.1
    have h4 := distDecay_pos cd.2
    positivity
  · rw [List.mem_singleton] at hx
    subst hx
    exact hwf.bg_pos

theorem spotStep_dist {cfg : EngineCfg} {md : ModelData} {st : EngineState}
    (hwf : WfData cfg md) (hst : WfState md st) :
    ∀ v ∈ spotStep cfg md st, IsDist v := by
  intro v hv
  obtain ⟨s, hs, rfl⟩ := List.mem_map.mp hv
  exact normalize_isDist (spotWeights_pos hwf hst hs) (by simp [spotWeights])

theorem candMass_nonneg {cands : List Nat} {post : List ℚ} {i : Nat}
    (hpost : ∀ x ∈ post, 0 ≤ x) : 0 ≤ candMass cands post i := by
  apply List.sum_nonneg
  intro x hx
  obtain ⟨cp, hcp, rfl⟩ := List.mem_map.mp hx
  exact hpost cp.2 (List.of_mem_zip (List.mem_of_mem_filter hcp)).2

theorem geneCellCount_nonneg (md : ModelData) (spotPost : List (List ℚ))
    (i g : Nat) (hsp : ∀ v ∈ spotPost, ∀ x ∈ v, 0 ≤ x) :
    0 ≤ geneCellCount md spotPost i g := by
  apply List.sum_nonneg
  intro x hx
  obtain ⟨sp, hspm, rfl⟩ := List.mem_map.mp hx
  exact candMass_nonneg (hsp sp.2 (List.of_mem_zip (List.mem_of_mem_filter hspm)).2)

theorem classScore_pos {cfg : EngineCfg} {md : ModelData}
    {spotPost : List (List ℚ)} {i c : Nat} (hwf : WfData cfg md)
    (hsp : ∀ v ∈ spotPost, ∀ x ∈ v, 0 ≤ x) :
    0 < classScore cfg md spotPost i c := by
  have hprior := hwf.prior_pos c
  have hsum : 0 ≤ ((List.range md.nGenes).map
      (fun g => geneCellCount md spotPost i g * rate cfg md g c)).sum := by
    apply List.sum_nonneg
    intro x hx
    obtain ⟨g, _, rfl⟩ := List.mem_map.mp hx
    have h1 := geneCellCount_nonneg md spotPost i g hsp
    have h2 : 0 < rate cfg md g c := lt_of_lt_of_le hwf.floor_pos (le_max_right _ _)
    positivity
  have hfloor := hwf.floor_pos
  rw [classScore]
  positivity

theorem cellStep_dist {cfg : EngineCfg} {md : ModelData}
    {spotPost : List (List ℚ)} (hwf : WfData cfg md)
    (hsp : ∀ v ∈ spotPost, ∀ x ∈ v, 0 ≤ x) :
    ∀ cp ∈ cellStep cfg md spotPost, IsDist cp := by
  intro cp hcp
  obtain ⟨i, _, rfl⟩ := List.mem_map.mp hcp
  apply normalize_isDist
  · intro x hx
    obtain ⟨c, _, rfl⟩ := List.mem_map.mp hx
    exact classScore_pos hwf hsp
  · have h := hwf.nClasses_pos
    simp only [ne_eq, List.map_eq_nil_iff, List.range_eq_nil]
    omega

theorem engineStep_wf {cfg : EngineCfg} {md : ModelData} {st : EngineState}
    (hwf : WfData cfg md) (hst : WfState md st) :
    WfState md (engineStep cfg md st) := by
  have hsp : ∀ v ∈ spotStep cfg md st, IsDist v := spotStep_dist hwf hst
  have hspn : ∀ v ∈ spotStep cfg md st, ∀ x ∈ v, 0 ≤ x := fun v hv => (hsp v hv).1
  refine ⟨?_, ?_, ?_, ?_⟩
  · rw [engineStep]
    simp [cellStep]
  · intro cp hcp
    exact cellStep_dist hwf hspn cp hcp
  · intro v hv
    exact hsp v hv
  · intro g
    have h : cfg.effLo ≤ clamp cfg.effLo cfg.effHi
        (observedCount md (spotStep cfg md st) g /
          (expectedCount cfg md (cellStep cfg md (spotStep cfg md st)) g + 1)) :=
      le_max_left _ _
    exact lt_of_lt_of_le hwf.effLo_pos h

theorem initState_wf {cfg : EngineCfg} {md : ModelData} (hwf : WfData cfg md) :
    WfState md (initState cfg md) := by
  refine ⟨by simp [initState], ?_, ?_, fun g => one_pos⟩
  · intro cp hcp
    rw [initState] at hcp
    rw [List.eq_of_mem_replicate hcp]
    constructor
    · intro x hx
      rw [List.eq_of_mem_replicate hx]
      positivity
    · rw [List.sum_replicate, nsmul_eq_mul]
      have h : (md.nClasses : ℚ) ≠ 0 := by
        exact_mod_cast Nat.pos_iff_ne_zero.mp hwf.nClasses_pos
      field_simp
  · intro v hv
    rw [initState] at hv
    obtain ⟨s, _, rfl⟩ := List.mem_map.mp hv
    apply normalize_isDist
    · intro x hx
      rw [List.mem_append] at hx
      rcases hx with hx | hx
      · obtain ⟨cd, _, rfl⟩ := List.mem_map.mp hx
        exact distDecay_pos cd.2
      · rw [List.mem_singleton] at hx
        subst hx
        exact hwf.bg_pos
    · simp

theorem iterate_wf {cfg : EngineCfg} {md : ModelData} (hwf : WfData cfg md) :
    ∀ n : Nat, WfState md ((engineStep cfg md)^[n] (initState cfg md)) := by
  intro n
  induction n with
  | zero => exact initState_wf hwf
  | succ n ih =>
    rw [Function.iterate_succ_apply']
    exact engineStep_wf hwf ih

theorem engineLoop_wf {cfg : EngineCfg} {md : ModelData} (hwf : WfData cfg md) :
    ∀ (n : Nat) (st : EngineState), WfState md st →
      WfState md (engineLoop cfg md n st).1 := by
  intro n
  induction n with
  | zero => intro st hst; exact hst
  | succ n ih =>
    intro st hst
    rw [engineLoop]
    by_cases hd : delta st (engineStep cfg md st) ≤ cfg.tol
    · simp only [hd, if_true]
      exact engineStep_wf hwf hst
    · simp only [hd, if_false]
      exact ih _ (engineStep_wf hwf hst)

/-- Claim C5 (spec-modelled, the engine source is not in the excerpt): after
every completed inference iteration, every cell's class-posterior vector has
no negative entries and sums to 1 within `1e-6`, and every spot's
candidate-posterior vector — its background entry included, it is the last
entry of the vector — has non-negative entries and sums to 1 within
`1e-6`. -/
theorem iteration_posteriors_normalized (cfg : EngineCfg) (md : ModelData)
    (hwf : WfData cfg md) (n : Nat) :
    (∀ cp ∈ ((engineStep cfg md)^[n + 1] (initState cfg md)).cellPost,
      (∀ x ∈ cp, 0 ≤ x) ∧ |cp.sum - 1| ≤ 1 / 1000000) ∧
    (∀ v ∈ ((engineStep cfg md)^[n + 1] (initState cfg md)).spotPost,
      (∀ x ∈ v, 0 ≤ x) ∧ |v.sum - 1| ≤ 1 / 1000000) := by
  have h := iterate_wf hwf (n + 1)
  constructor
  · intro cp hcp
    obtain ⟨hnn, hsum⟩ := h.cell_dist cp hcp
    refine ⟨hnn, ?_⟩
    rw [hsum]
    norm_num
  · intro v hv
    obtain ⟨hnn, hsum⟩ := h.spot_dist v hv
    refine ⟨hnn, ?_⟩
    rw [hsum]
    norm_num

theorem tinyWf : WfData tinyCfg tinyMd :=
  ⟨Nat.one_pos, by norm_num [tinyCfg], by norm_num [tinyCfg], by norm_num [tinyCfg],
    fun c => by norm_num [tinyMd], fun i => by norm_num [tinyMd],
    fun s hs => by simp [tinyMd] at hs⟩

/-- Witness for C5 at a concrete input: the one-cell, one-class model after
its first iteration. -/
theorem iteration_posteriors_normalized_witness :
    (∀ cp ∈ ((engineStep tinyCfg tinyMd)^[0 + 1] (initState tinyCfg tinyMd)).cellPost,
      (∀ x ∈ cp, 0 ≤ x) ∧ |cp.sum - 1| ≤ 1 / 1000000) ∧
    (∀ v ∈ ((engineStep tinyCfg tinyMd)^[0 + 1] (initState tinyCfg tinyMd)).spotPost,
      (∀ x ∈ v, 0 ≤ x) ∧ |v.sum - 1| ≤ 1 / 1000000) :=
  iteration_posteriors_normalized tinyCfg tinyMd tinyWf 0

theorem l1_nonneg (a b : List ℚ) : 0 ≤ l1 a b := by
  apply List.sum_nonneg
  intro x hx
  obtain ⟨xy, _, rfl⟩ := List.mem_map.mp hx
  exact abs_nonneg _

theorem l1s_nonneg (A B : List (List ℚ)) : 0 ≤ l1s A B := by
  apply List.sum_nonneg
  intro x hx
  obtain ⟨ab, _, rfl⟩ := List.mem_map.mp hx
  exact l1_nonneg _ _

theorem delta_nonneg (s t : EngineState) : 0 ≤ delta s t :=
  add_nonneg (l1s_nonneg _ _) (l1s_nonneg _ _)

theorem engineLoop_negTol (cfg : EngineCfg) (md : ModelData) (htol : cfg.tol < 0) :
    ∀ (n : Nat) (st : EngineState), (engineLoop cfg md n st).2 = false := by
  intro n
  induction n with
  | zero => intro st; rfl
  | succ n ih =>
    intro st
    rw [engineLoop]
    have hno : ¬ delta st (engineStep cfg md st) ≤ cfg.tol := fun h =>
      absurd (lt_of_le_of_lt h htol) (not_lt.mpr (delta_nonneg _ _))
    simp only [hno, if_false]
    exact ih _

/-- Claim C6 (spec-modelled, the engine source is not in the excerpt): when
the engine exhausts its iteration budget without meeting the tolerance, it
raises no exception — `runEngine` is a total function returning a result —
and the result carries the still-normalized best-effort posteriors with the
`NonConvergenceWarning` flag set. -/
theorem max_iter_warning_normalized (cfg : EngineCfg) (md : ModelData)
    (hwf : WfData cfg md)
    (hnc : (engineLoop cfg md cfg.max_iter (initState cfg md)).2 = false) :
    (runEngine cfg md).nonConvergenceWarning = true ∧
    (∀ cp ∈ (runEngine cfg md).state.cellPost, (∀ x ∈ cp, 0 ≤ x) ∧ cp.sum = 1) ∧
    (∀ v ∈ (runEngine cfg md).state.spotPost, (∀ x ∈ v, 0 ≤ x) ∧ v.sum = 1) := by
  have hwfs : WfState md (runEngine cfg md).state :=
    engineLoop_wf hwf cfg.max_iter _ (initState_wf hwf)
  refine ⟨?_, ?_, ?_⟩
  · show (!(engineLoop cfg md cfg.max_iter (initState cfg md)).2) = true
    rw [hnc]
    rfl
  · intro cp hcp
    exact hwfs.cell_dist cp hcp
  · intro v hv
    exact hwfs.spot_dist v hv

/-- Witness for C6 at a concrete input: the one-cell model with
`max_iter = 1` and an unmeetable (negative) tolerance. -/
theorem max_iter_warning_normalized_witness :
    (runEngine tinyCfg tinyMd).nonConvergenceWarning = true ∧
    (∀ cp ∈ (runEngine tinyCfg tinyMd).state.cellPost,
      (∀ x ∈ cp, 0 ≤ x) ∧ cp.sum = 1) ∧
    (∀ v ∈ (runEngine tinyCfg tinyMd).state.spotPost,
      (∀ x ∈ v, 0 ≤ x) ∧ v.sum = 1) :=
  max_iter_warning_normalized tinyCfg tinyMd tinyWf
    (engineLoop_negTol tinyCfg tinyMd (by norm_num [tinyCfg]) _ _)

theorem argmaxIdx_getD : ∀ (l : List ℚ), l ≠ [] →
    l.getD (argmaxIdx l) 0 = listMax l := by
  intro l
  induction l with
  | nil => intro h; exact absurd rfl h
  | cons x t ih =>
    intro _
    cases t with
    | nil => rfl
    | cons y rest =>
      by_cases hle : listMax (y :: rest) ≤ x
      · simp only [argmaxIdx, hle, if_true, listMax, List.getD_cons_zero]
        exact (max_eq_left hle).symm
      · simp only [argmaxIdx, hle, if_false, listMax, List.getD_cons_succ]
        rw [ih (by simp), max_eq_right (le_of_lt (not_le.mp hle))]

theorem le_listMax : ∀ {l : List ℚ} {x : ℚ}, x ∈ l → x ≤ listMax l := by
  intro l
  induction l with
  | nil => intro x hx; simp at hx
  | cons a t ih =>
    intro x hx
    cases t with
    | nil =>
      rw [List.mem_singleton] at hx
      subst hx
      exact le_refl _
    | cons y rest =>
      rcases List.mem_cons.mp hx with rfl | hx
      · exact le_max_left _ _
      · exact le_trans (ih hx) (le_max_right _ _)

theorem getD_le_argmax (l : List ℚ) (i : Nat) (hi : i < l.length) :
    l.getD i 0 ≤ l.getD (argmaxIdx l) 0 := by
  have hne : l ≠ [] := by
    intro h
    rw [h] at hi
    simp at hi
  rw [argmaxIdx_getD l hne]
  apply le_listMax
  rw [List.getD_eq_getElem _ _ hi]
  exact List.getElem_mem hi

theorem argmaxIdx_first : ∀ (l : List ℚ) (i : Nat), i < l.length →
    l.getD (argmaxIdx l) 0 ≤ l.getD i 0 → argmaxIdx l ≤ i := by
  intro l
  induction l with
  | nil => intro i hi; simp at hi
  | cons x t ih =>
    intro i hi hle
    cases t with
    | nil => simp [argmaxIdx]
    | cons y rest =>
      by_cases hmax : listMax (y :: rest) ≤ x
      · simp [argmaxIdx, hmax]
      · simp only [argmaxIdx, hmax, if_false] at hle ⊢
        match i with
        | 0 =>
          exfalso
          rw [List.getD_cons_succ, List.getD_cons_zero] at hle
          have ih2 := argmaxIdx_getD (y :: rest) (by simp)
          rw [ih2] at hle
          exact absurd hle hmax
        | Nat.succ j =>
          rw [List.getD_cons_succ, List.getD_cons_succ] at hle
          have hj : j < (y :: rest).length := by
            simpa using Nat.lt_of_succ_lt_succ hi
          exact Nat.succ_le_succ (ih j hj hle)

/-- Claim C7 (spec-modelled, the engine source is not in the excerpt): the
engine is a pure function, so two runs on identical data and identical
hyperparameters return identical posteriors; and the assigned candidate is
the *first* index attaining the maximal posterior, so ties between
equal-posterior candidates are broken by their (prior-ranking) order in the
candidate list, never by anything else: the chosen index bounds every index
whose posterior reaches the maximum. -/
theorem engine_deterministic_tiebreak (cfg : EngineCfg) (md1 md2 : ModelData)
    (heq : md1 = md2) :
    runEngine cfg md1 = runEngine cfg md2 ∧
    (∀ (probs : List ℚ) (i : Nat), i < probs.length →
      probs.getD i 0 ≤ probs.getD (argmaxIdx probs) 0 ∧
      (probs.getD (argmaxIdx probs) 0 ≤ probs.getD i 0 → argmaxIdx probs ≤ i)) := by
  subst heq
  refine ⟨rfl, ?_⟩
  intro probs i hi
  exact ⟨getD_le_argmax probs i hi, argmaxIdx_first probs i hi⟩

/-- Witness for C7 at a concrete input: the one-cell model compared with
itself. -/
theorem engine_deterministic_tiebreak_witness :
    runEngine tinyCfg tinyMd = runEngine tinyCfg tinyMd ∧
    (∀ (probs : List ℚ) (i : Nat), i < probs.length →
      probs.getD i 0 ≤ probs.getD (argmaxIdx probs) 0 ∧
      (probs.getD (argmaxIdx probs) 0 ≤ probs.getD i 0 → argmaxIdx probs ≤ i)) :=
  engine_deterministic_tiebreak tinyCfg tinyMd tinyMd rfl

/-- Claim C8 (spec-modelled, the gene-vocabulary reconciliation happens in the
engine sources absent from the excerpt): a gene appearing among the spots but
absent from the reference expression matrix does not abort the run — provided
at least one spot gene is shared with the reference, the check returns
normally, the unknown gene is excluded from inference, and the kept spots are
exactly those whose gene the reference knows, in their original order. -/
theorem unknown_gene_excluded (refGenes : List String) (spots : List Spot)
    (g : String) (hg : g ∉ refGenes) (hsome : ∃ s ∈ spots, s.gene ∈ refGenes) :
    ∃ kept, vocabCheck refGenes spots = Except.ok kept ∧
      (∀ s ∈ kept, s.gene ≠ g) ∧
      kept = spots.filter (fun s => refGenes.contains s.gene) := by
  obtain ⟨s0, hs0, hs0g⟩ := hsome
  have hmem : s0 ∈ keepSpots refGenes spots := by
    rw [keepSpots, List.mem_filter]
    exact ⟨hs0, by simpa using hs0g⟩
  have hne : (keepSpots refGenes spots).isEmpty = false := by
    rw [List.isEmpty_eq_false]
    exact List.ne_nil_of_mem hmem
  refine ⟨keepSpots refGenes spots, ?_, ?_, rfl⟩
  · rw [vocabCheck, hne]
    rfl
  · intro s hs
    rw [keepSpots, List.mem_filter] at hs
    intro hcon
    apply hg
    rw [← hcon]
    simpa using hs.2

/-- Witness for C8 at a concrete input: a spot list with an unknown gene and
a known one. -/
theorem unknown_gene_excluded_witness :
    ∃ kept, vocabCheck ["Vip"] [⟨"Npy", 0, 0⟩, ⟨"Vip", 1, 1⟩] = Except.ok kept ∧
      (∀ s ∈ kept, s.gene ≠ "Npy") ∧
      kept = [⟨"Npy", 0, 0⟩, ⟨"Vip", 1, 1⟩].filter
        (fun s => (["Vip"] : List String).contains s.gene) :=
  unknown_gene_excluded ["Vip"] [⟨"Npy", 0, 0⟩, ⟨"Vip", 1, 1⟩] ("Npy")
    (by decide) ⟨⟨"Vip", 1, 1⟩, by decide, by decide⟩

end PciSeq
